import Mathlib

/-!
Verification of core algorithms of the Orange-OpenSource/its-client
repository, against its natural-language specification.

The Python sources are shallowly embedded:

* Python machine integers are `ℤ`/`ℕ`; Python floats are modelled as `ℚ`
  (all the claims below are about the branching / rounding structure of
  the arithmetic, not about binary floating-point precision);
* fallible code returns `Except String _` (raising) or `Option _`;
* QuadKeys (strings over "0123") are lists of `Fin 4` digits, ordered by
  the lexicographic order, which coincides with Python string comparison
  on such strings;
* the two `while` loops of `QuadZone.optimise` are written with an explicit
  fuel argument so that the definitions stay structurally recursive (and
  hence computable by the kernel); the fuel is always sufficient, which the
  lemmas establish.
-/

namespace ItsClient

/-! ### its-quadkeys: `its_quadkeys/quadkeys.py` -/

/-- A digit of a QuadKey: one of the characters "0123". -/
abbrev Digit := Fin 4

/-- The digit string of a QuadKey, leftmost (shallowest) digit first. -/
abbrev QKey := List Digit

/-- Python slice `l[:d]` for an arbitrary (possibly negative) `d`:
`l.take d` when `d ≥ 0`, and `l.take (len l + d)` (clamped at 0) when
`d < 0`. -/
def pySliceTo {α : Type} (l : List α) (d : ℤ) : List α :=
  if 0 ≤ d then l.take d.toNat else l.take (l.length - (-d).toNat)

/-- `QuadKey.make_shallower(depth)`: the source computes `new_depth`
(see `make_shallower_new_depth` below) but then returns
`QuadKey(self.quadkey[:depth])`, i.e. the raw slice of the original
`depth` argument. -/
def make_shallower (q : QKey) (depth : ℤ) : QKey :=
  pySliceTo q depth

/-- The `new_depth` value computed (and never used) by
`QuadKey.make_shallower`:
`max(1, len + depth)` for `depth ≤ 0`, else `min(len, depth)`. -/
def make_shallower_new_depth (q : QKey) (depth : ℤ) : ℤ :=
  if depth ≤ 0 then max 1 ((q.length : ℤ) + depth) else min (q.length : ℤ) depth

/-- `QuadKey.__init__` character validation: every character of the
string must be one of "0123"; the empty string passes (its set of
offending characters is empty). -/
def quadKeyCtorOk (s : String) : Bool :=
  s.toList.all (fun c => c == '0' || c == '1' || c == '2' || c == '3')

/-- The `QuadKey._NORTH` table: `{"0": None, "1": None, "2": "0", "3": "1"}`. -/
def NORTH_TBL : Digit → Option Digit := ![none, none, some 0, some 1]

/-- Helper for `QuadKey.__north_of_s`, operating on the reversed digit
list (deepest digit first), so that the source's recursion on the last
digit and `q[:-1]` becomes structural recursion on the head. The source
branches are: a single digit is looked up in `_NORTH`; a trailing `0`/`1`
recurses on the front and appends `2`/`3` (a `None` from the recursion
propagates — the `TypeError` of `None + "2"` is caught and turned into
`None`); a trailing `2`/`3` flips to `0`/`1` on the unchanged front. -/
def north_of_rev : QKey → Option QKey
  | [] => none
  | [d] => (NORTH_TBL d).map ([·])
  | d :: rest =>
    match d with
    | 0 => (north_of_rev rest).map (2 :: ·)
    | 1 => (north_of_rev rest).map (3 :: ·)
    | 2 => some (0 :: rest)
    | 3 => some (1 :: rest)

/-- `QuadKey.__north_of_s`: `None` (here `none`) means "no QuadKey North
of this one". -/
def north_of_s (q : QKey) : Option QKey :=
  (north_of_rev q.reverse).map List.reverse

/-- The `QuadKey(...)` constructor applied to the result of
`__north_of_s`: `QuadKey.__init__` raises `TypeError` when handed `None`
(it only accepts `QuadKey` or `str` arguments). -/
def quadKeyOfOpt (o : Option QKey) : Except String QKey :=
  match o with
  | some s => .ok s
  | none => .error "cannot create a QuadKey from a <class NoneType>"

/-- `QuadKey.north_of`: the source returns
`QuadKey(QuadKey.__north_of_s(self.quadkey))`. -/
def north_of (q : QKey) : Except String QKey :=
  quadKeyOfOpt (north_of_s q)

/-- The skip test of `QuadZone.optimise`:
`new_quadkeys and quadkey in new_quadkeys[-1]`, i.e. the most recently
kept QuadKey (head of the reversed `acc`) is a string-startswith root of
the popped `quadkey`. -/
def skipCond (acc : List QKey) (q : QKey) : Bool :=
  match acc with
  | p :: _ => p.isPrefixOf q
  | [] => false

/-- The merge test of `QuadZone.optimise`: the three QuadKeys following
`q` are `root+"1"`, `root+"2"`, `root+"3"` for
`root = q.make_shallower(-1)`. -/
def mergeCond (q a b c : QKey) : Prop :=
  a = make_shallower q (-1) ++ [1] ∧ b = make_shallower q (-1) ++ [2] ∧
    c = make_shallower q (-1) ++ [3]

instance (q a b c : QKey) : Decidable (mergeCond q a b c) :=
  inferInstanceAs (Decidable (_ ∧ _ ∧ _))

/-- One inner `while to_merge:` pass of `QuadZone.optimise`. `acc` holds
the `new_quadkeys` list in reverse (so `acc.head?` is `new_quadkeys[-1]`),
`todo` is `to_merge`. Steps, as in the source: pop the head `q`; if the
most recently kept QuadKey is a root of `q`, skip `q`; else if the next
three QuadKeys merge with `q` into `root`, drop them and keep `root`;
else keep `q` (also when fewer than three remain). The fuel argument
only makes the recursion structural; `todo.length ≤ fuel` always holds
at use sites. -/
def passAux : Nat → List QKey → List QKey → List QKey
  | 0, acc, todo => acc.reverse ++ todo
  | _ + 1, acc, [] => acc.reverse
  | fuel + 1, acc, q :: rest =>
    if skipCond acc q then
      passAux fuel acc rest
    else
      match rest with
      | a :: b :: c :: rest2 =>
        if mergeCond q a b c then
          passAux fuel (make_shallower q (-1) :: acc) rest2
        else
          passAux fuel (q :: acc) rest
      | _ => passAux fuel (q :: acc) rest

/-- The outer `while prev_nb_qk > len(new_quadkeys):` loop of
`QuadZone.optimise`: run passes until a pass no longer shrinks the list.
The fuel argument only makes the recursion structural; `l.length < fuel`
always holds at use sites, because every continued iteration strictly
shrinks the list. -/
def optimiseLoop : Nat → List QKey → List QKey
  | 0, l => l
  | fuel + 1, l =>
    let l2 := passAux l.length [] l
    if l2.length < l.length then optimiseLoop fuel l2 else l2

/-- `QuadZone.optimise`: the source starts from `sorted(self.quadkeys)`
(a strictly sorted list, since `self.quadkeys` is a set); here the
already-sorted list is the argument (the theorems assume
`l.Sorted (· < ·)`). -/
def optimise (l : List QKey) : List QKey :=
  optimiseLoop (l.length + 1) l

/-- The merge condition of one step of `QuadZone.optimise` does NOT hold:
the three QuadKeys following `q` are not `root+"1"`, `root+"2"`,
`root+"3"` for `root = q.make_shallower(-1)` (always true when fewer
than three follow). Used to state what a fixed point of the pass
satisfies. -/
def NoMergeStep (q : QKey) (rest : List QKey) : Prop :=
  match rest with
  | a :: b :: c :: _ => ¬ mergeCond q a b c
  | _ => True

/-- A list is a fixed point of the `QuadZone.optimise` pass when started
with most-recently-kept element `lastq`: no element is skipped (no kept
element is a string-prefix root of the next) and no merge fires
anywhere. -/
def Good : Option QKey → List QKey → Prop
  | _, [] => True
  | lastq, q :: rest =>
    (∀ p, lastq = some p → ¬ p <+: q) ∧ NoMergeStep q rest ∧ Good (some q) rest

/-! ### ETSI codec: `iot3/mobility/etsi.py` -/

/-- Python 3 `round()` on an exact value: round half to even (a half-way
value goes to the neighbour with even parity). -/
def pyRound (q : ℚ) : ℤ :=
  if q - (⌊q⌋ : ℚ) < 1/2 then ⌊q⌋
  else if 1/2 < q - (⌊q⌋ : ℚ) then ⌊q⌋ + 1
  else if ⌊q⌋ % 2 = 0 then ⌊q⌋ else ⌊q⌋ + 1

/-- `ETSI.MILLI_SECOND` scale. -/
def MILLI_SECOND : ℚ := 1 / 1000

/-- `ETSI.si2etsi(value, scale, undef, validity_range, out_of_range)`:
`undef` when the value is unknown (failing when no `undef` is given),
else `int(round(value / scale))`, then the two successive range checks
of the source (each replacing the running value by `out_of_range` when
given, else by the violated bound). -/
def si2etsi (value : Option ℚ) (scale : ℚ) (undef : Option ℤ)
    (validity_range : Option (ℤ × ℤ)) (out_of_range : Option ℤ) :
    Except String ℤ :=
  match value with
  | none =>
    match undef with
    | none =>
      .error "This conversion to an ETSI scale does not accept an unknown value (None)"
    | some u => .ok u
  | some v =>
    let etsi0 := pyRound (v / scale)
    match validity_range with
    | none => .ok etsi0
    | some (mn, mx) =>
      let e1 := if etsi0 < mn then (match out_of_range with | some o => o | none => mn)
                else etsi0
      let e2 := if mx < e1 then (match out_of_range with | some o => o | none => mx)
                else e1
      .ok e2

/-- `ETSI.etsi2si(value, scale, undef, out_of_range)`: `None` for either
sentinel, else `float(value) * scale`. -/
def etsi2si (value : ℤ) (scale : ℚ) (undef : Option ℤ) (out_of_range : Option ℤ) :
    Option ℚ :=
  if undef = some value then none
  else if out_of_range = some value then none
  else some ((value : ℚ) * scale)

/-- Round trip `etsi2si(si2etsi(x, s, undef=U), s, undef=U)` of §8 of the
spec (no validity range, no out-of-range sentinel in play). -/
def si_roundtrip (x : Option ℚ) (scale : ℚ) (u : ℤ) : Option ℚ :=
  match si2etsi x scale (some u) none none with
  | .ok e => etsi2si e scale (some u) none
  | .error _ => none

/-- The in-source fallback leap-second table (`leapseconds._fallback`),
as pairs `(UTC transition instant as a UNIX timestamp, TAI-UTC offset in
seconds)`. Loading the system tzfiles is I/O; this table agrees with
tzdata for all the dates involved here. The final `sentinel` entry of
the source (`datetime.max`) is represented by the end of the list. -/
def lsFallbackTable : List (ℤ × ℤ) :=
  [(63072000, 10), (78796800, 11), (94694400, 12), (126230400, 13),
   (157766400, 14), (189302400, 15), (220924800, 16), (252460800, 17),
   (283996800, 18), (315532800, 19), (362793600, 20), (394329600, 21),
   (425865600, 22), (489024000, 23), (567993600, 24), (631152000, 25),
   (662688000, 26), (709948800, 27), (741484800, 28), (773020800, 29),
   (820454400, 30), (867715200, 31), (915148800, 32), (1136073600, 33),
   (1230768000, 34), (1341100800, 35), (1435708800, 36), (1483228800, 37)]

/-- Interval lookup of `leapseconds._dTAI_UTC`: the offset of the last
transition at or before `t` (the sentinel interval extends the last
entry to +∞), `none` (a `ValueError` in the source) before the first
transition. The source scans `zip(transition_times, transition_times[1:])`
for the interval containing `t`; over a sorted table that is the last
entry whose transition is `≤ t`, computed here by recursing into the
tail first. -/
def lsLookup : List (ℤ × ℤ) → ℚ → Option ℤ
  | [], _ => none
  | (u, d) :: rest, t =>
    if t < (u : ℚ) then none
    else
      match lsLookup rest t with
      | some d2 => some d2
      | none => some d

/-- `leapseconds.dTAI_UTC_from_utc` over the fallback table. -/
def dTAI_UTC_from_utc (t : ℚ) : Option ℤ :=
  lsLookup lsFallbackTable t

/-- `leapseconds.utc_to_tai`: `utc_time + dTAI_UTC_from_utc(utc_time)`. -/
def utc_to_tai (t : ℚ) : Option ℚ :=
  (dTAI_UTC_from_utc t).map (fun d => t + (d : ℚ))

/-- `ETSI.EPOCH`: `int(utc_to_tai(2004-01-01T00:00:00).timestamp())`;
`1072915200` is the UNIX timestamp of 2004-01-01T00:00:00Z, and `int()`
truncation on this non-negative integral value is the floor. -/
def ETSI_EPOCH : ℤ :=
  ⌊(utc_to_tai 1072915200).getD 0⌋

/-- `ETSI.unix2etsi_time`: TAI milliseconds since the ETSI epoch,
rounded via `ETSI.si2etsi(tai_time - ETSI.EPOCH, ETSI.MILLI_SECOND, 0)`;
`none` when the leap-second lookup fails (dates before 1972). -/
def unix2etsi_time (t : ℚ) : Option ℤ :=
  (utc_to_tai t).bind fun tai =>
    (si2etsi (some (tai - (ETSI_EPOCH : ℚ))) MILLI_SECOND (some 0) none none).toOption

/-- `ETSI.generation_delta_time`: `unix2etsi_time(t) % 65536` (Python
`%` on a positive modulus is `Int.emod`). -/
def generation_delta_time (t : ℚ) : Option ℤ :=
  (unix2etsi_time t).map (· % 65536)

/-! ### Region of interest: `its-vehicle/its_vehicle/roi.py` -/

/-- The depth-adjustment loop of `RegionOfInterest.get`:
`for s in speeds: if speed < s or depth == 1: break; depth -= 1`. -/
def roiLoopDepth (speed : ℚ) (speeds : List ℚ) (depth : ℤ) : ℤ :=
  match speeds with
  | [] => depth
  | s :: rest =>
    if speed < s ∨ depth = 1 then depth
    else roiLoopDepth speed rest (depth - 1)

/-! ### MQTT client: `iot3/core/mqtt.py` -/

/-- The subscription-relevant state of an `MqttClient`: whether a message
callback was configured, whether `self.client.is_connected()`, and the
in-memory `self.subscriptions` set. -/
structure MqttState where
  hasMsgCb : Bool
  connected : Bool
  subscriptions : Finset String
deriving DecidableEq

/-- The wire traffic produced by one subscription mutation: the set passed
to `self.client.unsubscribe` and the set passed to
`self.client.subscribe`, `none` when the corresponding call was not
issued. -/
structure WireActions where
  unsubscribed : Option (Finset String)
  subscribed : Option (Finset String)
deriving DecidableEq

/-- `MqttClient.subscribe_replace(topics)`: raise when no message
callback is configured; else, when connected, wire-unsubscribe
`subscriptions \ topics` and wire-subscribe `topics \ subscriptions`
(each only when non-empty), then replace the in-memory set by `topics`;
when disconnected, only replace the in-memory set. -/
def subscribe_replace (st : MqttState) (topics : List String) :
    Except String (MqttState × WireActions) :=
  if st.hasMsgCb = false then
    .error "subscribing without a message callback"
  else
    let ts := topics.toFinset
    if st.connected then
      let unsub := st.subscriptions \ ts
      let sub := ts \ st.subscriptions
      .ok (⟨st.hasMsgCb, st.connected, ts⟩,
           ⟨if unsub = ∅ then none else some unsub,
            if sub = ∅ then none else some sub⟩)
    else
      .ok (⟨st.hasMsgCb, st.connected, ts⟩, ⟨none, none⟩)

/-! ### GNSS reports: `iot3/mobility/gnss.py` -/

/-- One of the four range specifications of `GNSSReport.__post_init__`
(`min_inc`/`min_exc`/`max_inc`/`max_exc`, each optional). -/
structure RangeSpec where
  min_inc : Option ℚ
  min_exc : Option ℚ
  max_inc : Option ℚ
  max_exc : Option ℚ

/-- The `_validate` check of `GNSSReport.__post_init__`: `true` iff none
of the four bound comparisons raises. -/
def validateOk (spec : RangeSpec) (v : ℚ) : Bool :=
  (spec.min_inc.all fun m => !decide (v < m)) &&
  (spec.min_exc.all fun m => !decide (v ≤ m)) &&
  (spec.max_inc.all fun m => !decide (m < v)) &&
  (spec.max_exc.all fun m => !decide (m ≤ v))

/-- Range of `latitude`: `[-90, 90]`. -/
def latSpec : RangeSpec := ⟨some (-90), none, some 90, none⟩

/-- Range of `longitude`: `(-180, 180]`. -/
def lonSpec : RangeSpec := ⟨none, some (-180), some 180, none⟩

/-- Range of `true_heading`: `(-180, 360)`. -/
def trueHeadingSpec : RangeSpec := ⟨none, some (-180), none, some 360⟩

/-- Range of `magnetic_heading`: `(-180, 180]`. -/
def magHeadingSpec : RangeSpec := ⟨none, some (-180), some 180, none⟩

/-- Handling of one degrees/radians pair in `GNSSReport.__post_init__`:
raise when both are set; validate the degrees value (for a
radians-supplied pair, validate its degrees conversion) and raise when
out of range; derive the missing member. The degree→radian and
radian→degree conversions (`math.radians`, `math.degrees`) are passed in
as functions. Returns the final `(degrees, radians)` members. -/
def pairInit (radians degrees : ℚ → ℚ) (spec : RangeSpec)
    (deg rad : Option ℚ) : Except String (Option ℚ × Option ℚ) :=
  match deg, rad with
  | some _, some _ => .error "Only one of field or field_r can be set"
  | some d, none =>
    if validateOk spec d then .ok (some d, some (radians d))
    else .error "value is out of range"
  | none, some r =>
    if validateOk spec (degrees r) then .ok (some (degrees r), some r)
    else .error "value is out of range"
  | none, none => .ok (none, none)

/-- The keyword arguments of `GNSSReport(...)` (every field optional,
defaulting to `None`). -/
structure GNSSInput where
  timestamp : Option ℚ := none
  time : Option ℚ := none
  latitude : Option ℚ := none
  latitude_r : Option ℚ := none
  longitude : Option ℚ := none
  longitude_r : Option ℚ := none
  altitude : Option ℚ := none
  speed : Option ℚ := none
  acceleration : Option ℚ := none
  track : Option ℚ := none
  horizontal_error : Option ℚ := none
  altitude_error : Option ℚ := none
  true_heading : Option ℚ := none
  magnetic_heading : Option ℚ := none
  true_heading_r : Option ℚ := none
  magnetic_heading_r : Option ℚ := none

/-- A fully constructed `GNSSReport` (after `__post_init__`). -/
structure GNSSReport where
  timestamp : ℚ
  time : Option ℚ
  latitude : Option ℚ
  latitude_r : Option ℚ
  longitude : Option ℚ
  longitude_r : Option ℚ
  altitude : Option ℚ
  speed : Option ℚ
  acceleration : Option ℚ
  track : Option ℚ
  horizontal_error : Option ℚ
  altitude_error : Option ℚ
  true_heading : Option ℚ
  magnetic_heading : Option ℚ
  true_heading_r : Option ℚ
  magnetic_heading_r : Option ℚ

/-- `GNSSReport.__post_init__`: reject a caller-supplied `timestamp`
(then stamp with the current time `now`); then process the four
degrees/radians pairs in the source's order (latitude, longitude,
true_heading, magnetic_heading); all other fields pass through. -/
def gnssPostInit (radians degrees : ℚ → ℚ) (now : ℚ) (inp : GNSSInput) :
    Except String GNSSReport :=
  if inp.timestamp.isSome then .error "Assigning timestamp is not allowed"
  else
    match pairInit radians degrees latSpec inp.latitude inp.latitude_r with
    | .error e => .error e
    | .ok lat =>
      match pairInit radians degrees lonSpec inp.longitude inp.longitude_r with
      | .error e => .error e
      | .ok lon =>
        match pairInit radians degrees trueHeadingSpec inp.true_heading inp.true_heading_r with
        | .error e => .error e
        | .ok th =>
          match pairInit radians degrees magHeadingSpec inp.magnetic_heading inp.magnetic_heading_r with
          | .error e => .error e
          | .ok mh =>
            .ok ⟨now, inp.time, lat.1, lat.2, lon.1, lon.2, inp.altitude, inp.speed,
                 inp.acceleration, inp.track, inp.horizontal_error, inp.altitude_error,
                 th.1, mh.1, th.2, mh.2⟩

/-- Acceptance condition of one degrees/radians pair (spec-side
restatement of when `pairInit` succeeds): not both members supplied, and
the supplied member (converted to degrees when radians) within range. -/
def pairAccept (degrees : ℚ → ℚ) (spec : RangeSpec) (deg rad : Option ℚ) : Prop :=
  match deg, rad with
  | some _, some _ => False
  | some d, none => validateOk spec d = true
  | none, some r => validateOk spec (degrees r) = true
  | none, none => True

/-- The `(degrees, radians)` members after construction (spec-side
restatement of the derivation `pairInit` performs on success): the
missing member of a pair is derived from the supplied one. -/
def derivedPair (radians degrees : ℚ → ℚ) (deg rad : Option ℚ) :
    Option ℚ × Option ℚ :=
  match deg, rad with
  | some d, none => (some d, some (radians d))
  | none, some r => (some (degrees r), some r)
  | _, _ => (deg, rad)

/-! ### IQM router: `its-interqueuemanager/src/its_iqm/iqm.py` -/

/-- Topics and payloads, as character lists (Python `str`/`bytes`). -/
abbrev Str := List Char

/-- A Python `bool | int` retain value. -/
inductive RetainV where
  | b (v : Bool)
  | i (v : ℤ)
deriving DecidableEq

/-- An `its_iqm.filters.Filter`, abstracted by its `apply` method:
`apply` returns the possibly rewritten `(topic, payload, retain)`, or
`none` for the source's `(None, None, None)` "dropped" result
(`qm_copy_cb` only ever inspects whether the returned topic is `None`). -/
structure Filt where
  apply : Str → Str → RetainV → Option (Str × Str × RetainV)

/-- The filter loops of `IQM.qm_copy_cb`: apply each filter in declared
order to the running `(topic, payload, retain)`; the first filter that
drops (returns a `None` topic) breaks the loop, which suppresses the
rest of the processing (the `for`/`else` of the source). -/
def runFilters (fs : List Filt) (topic payload : Str) (retain : RetainV) :
    Option (Str × Str × RetainV) :=
  match fs with
  | [] => some (topic, payload, retain)
  | f :: rest =>
    match f.apply topic payload retain with
    | none => none
    | some (t, p, r) => runFilters rest t p r

/-- The `msg_cb_data` dict handed to `IQM.qm_copy_cb`: the client to
publish on (`None` meaning the local client itself), the source queue
whose topic prefix is stripped, the destination queues, and the in- and
out-filters. Clients are identified by handles (`ℕ`). -/
structure QmData where
  copy_qm : Option ℕ
  copy_from : Str
  copy_to : List Str
  filters_in : List Filt
  filters_out : List Filt

/-- One `mqtt_cli.publish(topic=..., payload=..., retain=...)` call. -/
structure PubRec where
  client : ℕ
  topic : Str
  payload : Str
  retain : RetainV

/-- `IQM.qm_copy_cb`, returning the list of publishes it performs, in
order. Run in-filters from `retain = False`; if none dropped, pick
`data["copy_qm"] or self.local_qm`, and for each destination in
`copy_to` rewrite the topic (`cp_to + topic[len(copy_from):]`), run the
out-filters on the rewritten topic, and publish unless dropped. -/
def qm_copy_cb (local_qm : ℕ) (data : QmData) (topic payload : Str) :
    List PubRec :=
  match runFilters data.filters_in topic payload (RetainV.b false) with
  | none => []
  | some (t, p, r) =>
    let mqtt_cli := data.copy_qm.getD local_qm
    data.copy_to.filterMap fun cp_to =>
      match runFilters data.filters_out (cp_to ++ t.drop data.copy_from.length) p r with
      | none => none
      | some (nt, np, nr) => some ⟨mqtt_cli, nt, np, nr⟩

/-- The publishes produced for a single destination topic `nt`: one
publish of the out-filtered message on client `cli` when the out-filters
pass, none when they drop. (Spec-side helper used to state what
`qm_copy_cb` does per destination.) -/
def destPubs (cli : ℕ) (fout : List Filt) (nt p : Str) (r : RetainV) : List PubRec :=
  match runFilters fout nt p r with
  | none => []
  | some (t2, p2, r2) => [⟨cli, t2, p2, r2⟩]

/-! ## Theorems -/

/-! ### C10: `make_shallower` -/

/-- C10: `make_shallower(d)` returns the raw slice `quadkey[:d]`: the
QuadKey is unchanged for `d ≥ depth`, truncated to depth `d` for
`0 < d < depth`, empty for `d = 0` and for `d ≤ -depth`; the internally
computed clamped `new_depth` (at least 1) is never applied — at
`q = "0"`, `d = 0` the result has depth `0` while `new_depth` is `1` —
and the `QuadKey` constructor accepts the empty string. -/
theorem make_shallower_is_raw_slice (q : QKey) (d : ℤ) :
    ((q.length : ℤ) ≤ d → make_shallower q d = q) ∧
    (0 < d → d ≤ (q.length : ℤ) → make_shallower q d = q.take d.toNat) ∧
    (make_shallower q 0 = []) ∧
    (d ≤ -(q.length : ℤ) → make_shallower q d = []) ∧
    ((make_shallower ([0] : QKey) 0).length = 0 ∧
      make_shallower_new_depth ([0] : QKey) 0 = 1) ∧
    quadKeyCtorOk "" = true := by
  refine ⟨?_, ?_, ?_, ?_, by decide, by decide⟩
  · intro h
    have hd : 0 ≤ d := le_trans (Int.ofNat_nonneg _) h
    simp only [make_shallower, pySliceTo, if_pos hd]
    exact List.take_of_length_le (by omega)
  · intro h1 _
    simp only [make_shallower, pySliceTo, if_pos (le_of_lt h1)]
  · simp [make_shallower, pySliceTo]
  · intro h
    rcases le_or_lt 0 d with h0 | h0
    · have hq : q.length = 0 := by omega
      have hq' : q = [] := List.length_eq_zero.mp hq
      simp [make_shallower, pySliceTo, hq']
    · simp only [make_shallower, pySliceTo, if_neg (not_le.mpr h0)]
      have : q.length - (-d).toNat = 0 := by omega
      simp [this]

/-- Witness for C10 at `q = "012"`, `d = 2`. -/
theorem make_shallower_is_raw_slice_witness :
    make_shallower ([0, 1, 2] : QKey) 2 = List.take (Int.toNat 2) [0, 1, 2] :=
  (make_shallower_is_raw_slice [0, 1, 2] 2).2.1 (by decide) (by decide)

/-! ### C4: `north_of` at the North pole -/

/-- Digits all in `{0, 1}` are preserved by `List.reverse`; helper for
the pole lemma. -/
theorem north_of_rev_none (l : QKey) (hne : l ≠ [])
    (h01 : ∀ d ∈ l, d = 0 ∨ d = 1) : north_of_rev l = none := by
  induction l with
  | nil => exact absurd rfl hne
  | cons d rest ih =>
    match rest, ih with
    | [], _ =>
      rcases h01 d (by simp) with h | h <;> subst h <;> rfl
    | e :: rest2, ih =>
      have hrec : north_of_rev (e :: rest2) = none := by
        refine ih (by simp) ?_
        intro x hx
        exact h01 x (List.mem_cons_of_mem _ hx)
      rcases h01 d (by simp) with h | h <;> subst h <;>
        simp [north_of_rev, hrec]

/-- C4: the source promises that `north_of` of a Northern-most QuadKey
(all digits in `{0, 1}`) is absent (`None`), but `__north_of_s` returns
`None` and `north_of` then calls the `QuadKey` constructor on it, which
raises `TypeError`: `north_of` fails instead of returning absent. -/
theorem north_of_pole_raises (q : QKey) (hne : q ≠ [])
    (h01 : ∀ d ∈ q, d = 0 ∨ d = 1) :
    north_of_s q = none ∧
    north_of q = .error "cannot create a QuadKey from a <class NoneType>" := by
  have hs : north_of_s q = none := by
    have : north_of_rev q.reverse = none := by
      refine north_of_rev_none _ (by simpa using hne) ?_
      intro d hd
      exact h01 d (List.mem_reverse.mp hd)
    simp [north_of_s, this]
  exact ⟨hs, by simp [north_of, hs, quadKeyOfOpt]⟩

/-- Witness for C4 at the spec's concrete input `QuadKey("0")`. -/
theorem north_of_pole_raises_witness :
    north_of ([0] : QKey) =
      .error "cannot create a QuadKey from a <class NoneType>" :=
  (north_of_pole_raises [0] (by decide) (by decide)).2

/-! ### C2: `si2etsi` contract -/

/-- C2: `si2etsi(value, scale, undef, validity_range, out_of_range)`:
an absent value yields `undef` when provided and fails otherwise; a
present value yields `round(value / scale)`, except that when a
validity range `[mn, mx]` is provided and the rounded value falls
outside it, the result is `out_of_range` when provided and otherwise
the nearest bound. -/
theorem si2etsi_contract (scale : ℚ) (u oor mn mx : ℤ) (v : ℚ)
    (hrange : mn ≤ mx) :
    (∀ vr o, si2etsi none scale (some u) vr o = .ok u) ∧
    (∀ vr o, (si2etsi none scale none vr o).isOk = false) ∧
    (∀ ud o, si2etsi (some v) scale ud none o = .ok (pyRound (v / scale))) ∧
    (∀ ud, mn ≤ pyRound (v / scale) → pyRound (v / scale) ≤ mx →
      ∀ o, si2etsi (some v) scale ud (some (mn, mx)) o = .ok (pyRound (v / scale))) ∧
    (∀ ud, (pyRound (v / scale) < mn ∨ mx < pyRound (v / scale)) →
      si2etsi (some v) scale ud (some (mn, mx)) (some oor) = .ok oor) ∧
    (∀ ud, pyRound (v / scale) < mn →
      si2etsi (some v) scale ud (some (mn, mx)) none = .ok mn) ∧
    (∀ ud, mx < pyRound (v / scale) →
      si2etsi (some v) scale ud (some (mn, mx)) none = .ok mx) := by
  refine ⟨fun vr o => by cases vr <;> rfl, fun vr o => by cases vr <;> rfl,
    fun ud o => by cases ud <;> rfl, ?_, ?_, ?_, ?_⟩
  · intro ud h1 h2 o
    cases ud <;> cases o <;>
      simp [si2etsi, if_neg (not_lt.mpr h1), if_neg (not_lt.mpr h2)]
  · intro ud h
    rcases h with h | h
    · have h2 : ¬ pyRound (v / scale) < mn → False := fun hc => hc h
      cases ud <;> simp [si2etsi, if_pos h]
    · have h1 : ¬ pyRound (v / scale) < mn := not_lt.mpr (le_trans hrange (le_of_lt h))
      cases ud <;> simp [si2etsi, if_neg h1, if_pos h]
  · intro ud h
    have h2 : ¬ mx < mn := not_lt.mpr hrange
    cases ud <;> simp [si2etsi, if_pos h, if_neg h2]
  · intro ud h
    have h1 : ¬ pyRound (v / scale) < mn := not_lt.mpr (le_trans hrange (le_of_lt h))
    cases ud <;> simp [si2etsi, if_neg h1, if_pos h]

/-- Witness for C2 at the spec's concrete example:
`si2etsi(43.635, DECI_MICRO_DEGREE, undef=900000001) = 436350000`. -/
theorem si2etsi_contract_witness :
    si2etsi (some (43635 / 1000)) (1 / 10000000) (some 900000001) none none =
      .ok (pyRound ((43635 / 1000 : ℚ) / (1 / 10000000))) :=
  (si2etsi_contract (1 / 10000000) 900000001 0 0 1 (43635 / 1000) (by decide)).2.2.1
    (some 900000001) none

/-! ### C3: RoI depth decrement (corrected: `v ≥ s` decrements) -/

/-- C3 counterexample: with base depth 3 and threshold vector `[10]`, a
speed of exactly `10` is NOT strictly greater than the threshold, yet
the loop decrements the depth to 2 (the source breaks only on
`speed < s`, so equality decrements). -/
theorem roi_equal_speed_decrements :
    ¬((10 : ℚ) > 10) ∧ roiLoopDepth 10 [10] 3 = 2 := by
  constructor
  · exact lt_irrefl _
  · rfl

/-- C3 (amended): for a strictly increasing threshold vector and a base
depth `d ≥ 1`, the loop decrements the depth by one for each threshold
reached or exceeded (`s ≤ v`, so equality does decrement), never going
below 1: the result is `max 1 (d - #{i | sᵢ ≤ v})`. -/
theorem roiLoopDepth_eq_max (v : ℚ) (speeds : List ℚ) (d : ℤ)
    (hsorted : speeds.Sorted (· < ·)) (hd : 1 ≤ d) :
    roiLoopDepth v speeds d =
      max 1 (d - (speeds.filter (fun s => decide (s ≤ v))).length) := by
  induction speeds generalizing d with
  | nil => simp [roiLoopDepth]; omega
  | cons s rest ih =>
    rcases List.sorted_cons.mp hsorted with ⟨hhead, hrest⟩
    by_cases hvs : v < s
    · have hfs : ¬ s ≤ v := not_le.mpr hvs
      have hfrest : rest.filter (fun x => decide (x ≤ v)) = [] := by
        refine List.filter_eq_nil_iff.mpr ?_
        intro x hx
        simpa using not_le.mpr (lt_trans hvs (hhead x hx))
      simp only [roiLoopDepth, if_pos (Or.inl hvs), List.filter_cons,
        hfrest]
      simp [hfs]
      omega
    · have hle : s ≤ v := not_lt.mp hvs
      by_cases hd1 : d = 1
      · subst hd1
        simp only [roiLoopDepth, if_pos (Or.inr rfl), List.filter_cons]
        simp [hle]
        omega
      · have hcond : ¬(v < s ∨ d = 1) := by
          push_neg
          exact ⟨hle, hd1⟩
        simp only [roiLoopDepth, if_neg hcond, List.filter_cons]
        rw [ih (d - 1) hrest (by omega)]
        simp [hle]
        omega

/-- Witness for C3's amended theorem: speed 10 against thresholds
`[5, 8]` with base depth 3 gives depth `max 1 (3 - 2) = 1`. -/
theorem roiLoopDepth_eq_max_witness :
    roiLoopDepth 10 [5, 8] 3 =
      max 1 (3 - (([5, 8] : List ℚ).filter (fun s => decide (s ≤ (10 : ℚ)))).length) :=
  roiLoopDepth_eq_max 10 [5, 8] 3 (by decide) (by decide)

/-! ### C7: ETSI round trip (corrected: the rounded value must differ
from the sentinel) -/

/-- Evaluation of `pyRound` on an integral argument. -/
theorem pyRound_intCast (n : ℤ) : pyRound ((n : ℚ)) = n := by
  simp only [pyRound, Int.floor_intCast, sub_self]
  rw [if_pos (by norm_num)]

/-- C7 counterexample: with `s = 1` and `U = 5`, the present value
`x = 5` has `x/s` rounding to itself, yet the round trip returns absent
(`si2etsi` yields the sentinel value `5 = U`, which `etsi2si` maps back
to `None`), not `x`. -/
theorem si_roundtrip_hits_sentinel :
    ((pyRound ((5 : ℚ) / 1) : ℚ) = (5 : ℚ) / 1) ∧
    si_roundtrip (some 5) 1 5 ≠ some 5 := by
  have h5 : ((5 : ℚ) / 1) = ((5 : ℤ) : ℚ) := by norm_num
  have hr : pyRound ((5 : ℚ) / 1) = 5 := by rw [h5, pyRound_intCast]
  have h1 : si2etsi (some 5) 1 (some 5) none none = .ok (pyRound ((5 : ℚ) / 1)) := rfl
  constructor
  · rw [hr, h5]
  · simp only [si_roundtrip, h1, hr, etsi2si]
    simp

/-- C7 (amended): `etsi2si(si2etsi(x, s, undef=U), s, undef=U) = x`
whenever `x` is present, `x/s` rounds to itself and the rounded value is
not the sentinel `U`; and the round trip of an absent `x` is absent. -/
theorem si_roundtrip_id (x s : ℚ) (u : ℤ) (hs : s ≠ 0)
    (hround : (pyRound (x / s) : ℚ) = x / s) (hu : pyRound (x / s) ≠ u) :
    si_roundtrip (some x) s u = some x ∧ si_roundtrip none s u = none := by
  constructor
  · have h1 : si2etsi (some x) s (some u) none none = .ok (pyRound (x / s)) := rfl
    have h2 : ¬ ((some u : Option ℤ) = some (pyRound (x / s))) := by
      intro hc
      exact hu (Option.some.inj hc).symm
    have h3 : ¬ ((none : Option ℤ) = some (pyRound (x / s))) := by simp
    simp only [si_roundtrip, h1]
    rw [etsi2si, if_neg h2, if_neg h3, hround, div_mul_cancel₀ _ hs]
  · simp [si_roundtrip, si2etsi, etsi2si]

/-- Witness for C7's amended theorem at `x = 42`, `s = 2`, `U = 9`. -/
theorem si_roundtrip_id_witness :
    si_roundtrip (some 42) 2 9 = some 42 :=
  (si_roundtrip_id 42 2 9 (by norm_num) (by norm_num [pyRound]) (by norm_num [pyRound])).1

/-! ### C8: generation delta time (corrected: the concrete value is
58344, not 39784) -/

/-- Evaluation of the leap-second lookup at 2007-01-01T00:00:00Z. -/
theorem dTAI_2007 : dTAI_UTC_from_utc 1167609600 = some 33 := by
  norm_num [dTAI_UTC_from_utc, lsFallbackTable, lsLookup]

/-- Evaluation of the leap-second lookup at 2004-01-01T00:00:00Z. -/
theorem dTAI_2004 : dTAI_UTC_from_utc 1072915200 = some 32 := by
  norm_num [dTAI_UTC_from_utc, lsFallbackTable, lsLookup]

/-- The ETSI epoch as a UNIX-style TAI timestamp: 2004-01-01T00:00:00Z
plus the 32 leap seconds accumulated by then. -/
theorem ETSI_EPOCH_eq : ETSI_EPOCH = 1072915232 := by
  have h : utc_to_tai 1072915200 = some 1072915232 := by
    rw [utc_to_tai, dTAI_2004]
    norm_num
  rw [ETSI_EPOCH, h]
  have h2 : ((some (1072915232 : ℚ)).getD 0) = ((1072915232 : ℤ) : ℚ) := by
    norm_num
  rw [h2, Int.floor_intCast]

/-- The ETSI millisecond timestamp of 2007-01-01T00:00:00Z
(UNIX `1167609600`): `(1167609633 - 1072915232) * 1000`. -/
theorem unix2etsi_2007 : unix2etsi_time 1167609600 = some 94694401000 := by
  have hu : utc_to_tai 1167609600 = some 1167609633 := by
    rw [utc_to_tai, dTAI_2007]
    norm_num
  rw [unix2etsi_time, hu, ETSI_EPOCH_eq]
  have harg : (1167609633 : ℚ) - ((1072915232 : ℤ) : ℚ) = 94694401 := by norm_num
  have hdiv : (94694401 : ℚ) / MILLI_SECOND = ((94694401000 : ℤ) : ℚ) := by
    rw [MILLI_SECOND]
    norm_num
  show (si2etsi (some ((1167609633 : ℚ) - ((1072915232 : ℤ) : ℚ))) MILLI_SECOND
    (some 0) none none).toOption = some 94694401000
  rw [harg]
  have hcall : si2etsi (some (94694401 : ℚ)) MILLI_SECOND (some 0) none none =
      .ok (pyRound ((94694401 : ℚ) / MILLI_SECOND)) := rfl
  rw [hcall, hdiv, pyRound_intCast]
  rfl

/-- C8 counterexample: the generation delta time of
`t = 2007-01-01T00:00:00Z` is `94694401000 mod 65536 = 58344`, not the
`39784` asserted by the spec. -/
theorem generation_delta_time_2007_ne :
    generation_delta_time 1167609600 = some 58344 ∧ (58344 : ℤ) ≠ 39784 := by
  constructor
  · rw [generation_delta_time, unix2etsi_2007]
    norm_num
  · decide

/-- C8 (amended): `generation_delta_time(t)` is the ETSI millisecond
timestamp of `t` modulo 65536; at `t = 2007-01-01T00:00:00Z` the ETSI
timestamp is `94694401000` ms and the generation delta time is
`94694401000 mod 65536 = 58344`. -/
theorem generation_delta_time_spec :
    (∀ (t : ℚ) (e : ℤ), unix2etsi_time t = some e →
      generation_delta_time t = some (e % 65536)) ∧
    unix2etsi_time 1167609600 = some 94694401000 ∧
    generation_delta_time 1167609600 = some 58344 ∧
    (94694401000 : ℤ) % 65536 = 58344 := by
  refine ⟨?_, unix2etsi_2007, ?_, by norm_num⟩
  · intro t e h
    simp [generation_delta_time, h]
  · rw [generation_delta_time, unix2etsi_2007]
    norm_num

/-- Witness for C8's amended theorem at the spec's concrete date. -/
theorem generation_delta_time_spec_witness :
    generation_delta_time 1167609600 = some ((94694401000 : ℤ) % 65536) :=
  generation_delta_time_spec.1 1167609600 94694401000 generation_delta_time_spec.2.1

/-! ### C5: `subscribe_replace` -/

/-- C5: for any topic list and prior state (with a message callback
configured), `subscribe_replace` leaves the in-memory subscription set
equal to the new topic set; when connected it wire-unsubscribes exactly
`current \ S` and wire-subscribes exactly `S \ current` (each skipped
when empty), computed from the prior state; when disconnected it issues
no wire traffic at all. -/
theorem subscribe_replace_spec (st : MqttState) (topics : List String)
    (hcb : st.hasMsgCb = true) :
    ∃ st2 wire, subscribe_replace st topics = .ok (st2, wire) ∧
      st2.subscriptions = topics.toFinset ∧
      st2.hasMsgCb = st.hasMsgCb ∧
      st2.connected = st.connected ∧
      (st.connected = true →
        wire.unsubscribed =
          (if st.subscriptions \ topics.toFinset = ∅ then none
           else some (st.subscriptions \ topics.toFinset)) ∧
        wire.subscribed =
          (if topics.toFinset \ st.subscriptions = ∅ then none
           else some (topics.toFinset \ st.subscriptions))) ∧
      (st.connected = false →
        wire.unsubscribed = none ∧ wire.subscribed = none) := by
  by_cases hconn : st.connected = true
  · refine ⟨⟨st.hasMsgCb, st.connected, topics.toFinset⟩,
      ⟨if st.subscriptions \ topics.toFinset = ∅ then none
        else some (st.subscriptions \ topics.toFinset),
       if topics.toFinset \ st.subscriptions = ∅ then none
        else some (topics.toFinset \ st.subscriptions)⟩,
      ?_, rfl, rfl, rfl, fun _ => ⟨rfl, rfl⟩,
      fun hc => by rw [hconn] at hc; cases hc⟩
    simp [subscribe_replace, hcb, hconn]
  · have hconn2 : st.connected = false := by
      revert hconn
      cases st.connected <;> simp
    refine ⟨⟨st.hasMsgCb, st.connected, topics.toFinset⟩, ⟨none, none⟩,
      ?_, rfl, rfl, rfl, fun hc => absurd hc hconn, fun _ => ⟨rfl, rfl⟩⟩
    simp [subscribe_replace, hcb, hconn2]

/-- Witness for C5 at a concrete connected state. -/
theorem subscribe_replace_spec_witness :
    ∃ st2 wire,
      subscribe_replace ⟨true, true, {"a", "b"}⟩ ["b", "c"] = .ok (st2, wire) ∧
      st2.subscriptions = (["b", "c"] : List String).toFinset ∧
      st2.hasMsgCb = true ∧
      st2.connected = true ∧
      (true = true →
        wire.unsubscribed =
          (if ({"a", "b"} : Finset String) \ (["b", "c"] : List String).toFinset = ∅
           then none
           else some (({"a", "b"} : Finset String) \ (["b", "c"] : List String).toFinset)) ∧
        wire.subscribed =
          (if (["b", "c"] : List String).toFinset \ ({"a", "b"} : Finset String) = ∅
           then none
           else some ((["b", "c"] : List String).toFinset \ ({"a", "b"} : Finset String)))) ∧
      (true = false → wire.unsubscribed = none ∧ wire.subscribed = none) :=
  subscribe_replace_spec ⟨true, true, {"a", "b"}⟩ ["b", "c"] rfl

/-! ### C9: `GNSSReport` construction (corrected: both members of a pair
may never be supplied together, equivalent or not) -/

/-- C9 counterexample: supplying both `latitude = 0` and
`latitude_r = 0` — two exactly equivalent, in-range values (0° is 0
radians under the conversion) — still fails construction: the source
raises "Only one of ... can be set" before any equivalence check. -/
theorem gnss_both_members_fails :
    (gnssPostInit (fun d => d * (314159265 / 18000000000))
        (fun r => r * (18000000000 / 314159265)) 0
        ⟨none, none, some 0, some 0, none, none, none, none, none, none,
         none, none, none, none, none, none⟩).isOk = false ∧
    (fun d : ℚ => d * (314159265 / 18000000000)) 0 = 0 ∧
    validateOk latSpec 0 = true := by
  refine ⟨rfl, by norm_num, ?_⟩
  norm_num [validateOk, latSpec]

/-- Helper: exactly when `pairInit` succeeds, and with which value. -/
theorem pairInit_eq_ok_iff (radians degrees : ℚ → ℚ) (spec : RangeSpec)
    (deg rad : Option ℚ) (p : Option ℚ × Option ℚ) :
    pairInit radians degrees spec deg rad = .ok p ↔
      pairAccept degrees spec deg rad ∧ p = derivedPair radians degrees deg rad := by
  cases deg with
  | none =>
    cases rad with
    | none => simp [pairInit, pairAccept, derivedPair, eq_comm]
    | some r =>
      by_cases hv : validateOk spec (degrees r) = true <;>
        simp [pairInit, pairAccept, derivedPair, hv, eq_comm]
  | some d =>
    cases rad with
    | none =>
      by_cases hv : validateOk spec d = true <;>
        simp [pairInit, pairAccept, derivedPair, hv, eq_comm]
    | some r => simp [pairInit, pairAccept, derivedPair]

/-- C9 (amended): `GNSSReport` construction succeeds exactly when no
`timestamp` is supplied, no degrees/radians pair has both members
supplied (even two exactly equivalent values fail), and every supplied
value — the degree-conversion of a supplied radians value — is within
its documented range; on success, the missing member of each pair is
derived from the supplied one. -/
theorem gnss_post_init_characterisation (radians degrees : ℚ → ℚ) (now : ℚ)
    (inp : GNSSInput) :
    ((∃ rep, gnssPostInit radians degrees now inp = .ok rep) ↔
      inp.timestamp = none ∧
      pairAccept degrees latSpec inp.latitude inp.latitude_r ∧
      pairAccept degrees lonSpec inp.longitude inp.longitude_r ∧
      pairAccept degrees trueHeadingSpec inp.true_heading inp.true_heading_r ∧
      pairAccept degrees magHeadingSpec inp.magnetic_heading inp.magnetic_heading_r) ∧
    ∀ rep, gnssPostInit radians degrees now inp = .ok rep →
      (rep.latitude, rep.latitude_r) =
        derivedPair radians degrees inp.latitude inp.latitude_r ∧
      (rep.longitude, rep.longitude_r) =
        derivedPair radians degrees inp.longitude inp.longitude_r ∧
      (rep.true_heading, rep.true_heading_r) =
        derivedPair radians degrees inp.true_heading inp.true_heading_r ∧
      (rep.magnetic_heading, rep.magnetic_heading_r) =
        derivedPair radians degrees inp.magnetic_heading inp.magnetic_heading_r := by
  by_cases hts : inp.timestamp = none
  · have hts' : inp.timestamp.isSome = false := by simp [hts]
    cases h1 : pairInit radians degrees latSpec inp.latitude inp.latitude_r with
    | error e =>
      have hna : ¬ pairAccept degrees latSpec inp.latitude inp.latitude_r := by
        intro ha
        have := (pairInit_eq_ok_iff radians degrees latSpec inp.latitude inp.latitude_r
          (derivedPair radians degrees inp.latitude inp.latitude_r)).mpr ⟨ha, rfl⟩
        rw [h1] at this
        cases this
      constructor
      · simp [gnssPostInit, hts', h1, hna]
      · intro rep hrep
        simp [gnssPostInit, hts', h1] at hrep
    | ok lat =>
      obtain ⟨ha1, hd1⟩ := (pairInit_eq_ok_iff _ _ _ _ _ _).mp h1
      cases h2 : pairInit radians degrees lonSpec inp.longitude inp.longitude_r with
      | error e =>
        have hna : ¬ pairAccept degrees lonSpec inp.longitude inp.longitude_r := by
          intro ha
          have := (pairInit_eq_ok_iff radians degrees lonSpec inp.longitude inp.longitude_r
            (derivedPair radians degrees inp.longitude inp.longitude_r)).mpr ⟨ha, rfl⟩
          rw [h2] at this
          cases this
        constructor
        · simp [gnssPostInit, hts', h1, h2, hna]
        · intro rep hrep
          simp [gnssPostInit, hts', h1, h2] at hrep
      | ok lon =>
        obtain ⟨ha2, hd2⟩ := (pairInit_eq_ok_iff _ _ _ _ _ _).mp h2
        cases h3 : pairInit radians degrees trueHeadingSpec inp.true_heading
            inp.true_heading_r with
        | error e =>
          have hna : ¬ pairAccept degrees trueHeadingSpec inp.true_heading
              inp.true_heading_r := by
            intro ha
            have := (pairInit_eq_ok_iff radians degrees trueHeadingSpec inp.true_heading
              inp.true_heading_r
              (derivedPair radians degrees inp.true_heading inp.true_heading_r)).mpr
              ⟨ha, rfl⟩
            rw [h3] at this
            cases this
          constructor
          · simp [gnssPostInit, hts', h1, h2, h3, hna]
          · intro rep hrep
            simp [gnssPostInit, hts', h1, h2, h3] at hrep
        | ok th =>
          obtain ⟨ha3, hd3⟩ := (pairInit_eq_ok_iff _ _ _ _ _ _).mp h3
          cases h4 : pairInit radians degrees magHeadingSpec inp.magnetic_heading
              inp.magnetic_heading_r with
          | error e =>
            have hna : ¬ pairAccept degrees magHeadingSpec inp.magnetic_heading
                inp.magnetic_heading_r := by
              intro ha
              have := (pairInit_eq_ok_iff radians degrees magHeadingSpec
                inp.magnetic_heading inp.magnetic_heading_r
                (derivedPair radians degrees inp.magnetic_heading
                  inp.magnetic_heading_r)).mpr ⟨ha, rfl⟩
              rw [h4] at this
              cases this
            constructor
            · simp [gnssPostInit, hts', h1, h2, h3, h4, hna]
            · intro rep hrep
              simp [gnssPostInit, hts', h1, h2, h3, h4] at hrep
          | ok mh =>
            obtain ⟨ha4, hd4⟩ := (pairInit_eq_ok_iff _ _ _ _ _ _).mp h4
            constructor
            · constructor
              · intro _
                exact ⟨hts, ha1, ha2, ha3, ha4⟩
              · intro _
                exact ⟨⟨now, inp.time, lat.1, lat.2, lon.1, lon.2, inp.altitude,
                  inp.speed, inp.acceleration, inp.track, inp.horizontal_error,
                  inp.altitude_error, th.1, mh.1, th.2, mh.2⟩,
                  by simp [gnssPostInit, hts', h1, h2, h3, h4]⟩
            · intro rep hrep
              simp only [gnssPostInit, hts', Bool.false_eq_true, if_false,
                h1, h2, h3, h4, Except.ok.injEq] at hrep
              subst hrep
              exact ⟨by rw [← hd1], by rw [← hd2], by rw [← hd3], by rw [← hd4]⟩
  · constructor
    · constructor
      · rintro ⟨rep, hrep⟩
        have hts' : inp.timestamp.isSome = true := by
          cases hcase : inp.timestamp with
          | none => exact absurd hcase hts
          | some v => rfl
        simp [gnssPostInit, hts'] at hrep
      · rintro ⟨h, -⟩
        exact absurd h hts
    · intro rep hrep
      have hts' : inp.timestamp.isSome = true := by
        cases hcase : inp.timestamp with
        | none => exact absurd hcase hts
        | some v => rfl
      simp [gnssPostInit, hts'] at hrep

/-- Witness for C9's amended theorem: a report with only a latitude of
45° constructs, deriving its radians member. -/
theorem gnss_post_init_characterisation_witness :
    ∃ rep, gnssPostInit (fun d => d * (314159265 / 18000000000))
      (fun r => r * (18000000000 / 314159265)) 0
      ⟨none, none, some 45, none, none, none, none, none, none, none,
       none, none, none, none, none, none⟩ = .ok rep :=
  (gnss_post_init_characterisation (fun d => d * (314159265 / 18000000000))
    (fun r => r * (18000000000 / 314159265)) 0
    ⟨none, none, some 45, none, none, none, none, none, none, none,
     none, none, none, none, none, none⟩).1.mpr
    ⟨rfl, by norm_num [pairAccept, validateOk, latSpec],
     trivial, trivial, trivial⟩

/-! ### C1: IQM local fan-out -/

/-- C1: a message arriving on the local `inQueue` that passes every
in-filter is forwarded once per destination (`outQueue`, then
`interQueue`): the topic is rewritten by replacing the `copy_from`
prefix with the destination queue, out-filters run against the
rewritten topic per destination, a drop suppresses only that
destination's publish, and every publish goes out on the local client
(the local `msg_cb_data` has `copy_qm = None`). -/
theorem qm_copy_cb_local_fanout (local_qm : ℕ) (fi fo : List Filt)
    (cfrom outq interq rest : Str) (topic payload : Str)
    (t p : Str) (r : RetainV)
    (hin : runFilters fi topic payload (RetainV.b false) = some (t, p, r))
    (ht : t = cfrom ++ rest) :
    qm_copy_cb local_qm ⟨none, cfrom, [outq, interq], fi, fo⟩ topic payload =
      destPubs local_qm fo (outq ++ rest) p r ++
        destPubs local_qm fo (interq ++ rest) p r ∧
    (∀ pub ∈ qm_copy_cb local_qm ⟨none, cfrom, [outq, interq], fi, fo⟩ topic payload,
      pub.client = local_qm) ∧
    (∀ o1 o2, runFilters fo (outq ++ rest) p r = some o1 →
      runFilters fo (interq ++ rest) p r = some o2 →
      qm_copy_cb local_qm ⟨none, cfrom, [outq, interq], fi, fo⟩ topic payload =
        [⟨local_qm, o1.1, o1.2.1, o1.2.2⟩, ⟨local_qm, o2.1, o2.2.1, o2.2.2⟩]) ∧
    (∀ o2, runFilters fo (outq ++ rest) p r = none →
      runFilters fo (interq ++ rest) p r = some o2 →
      qm_copy_cb local_qm ⟨none, cfrom, [outq, interq], fi, fo⟩ topic payload =
        [⟨local_qm, o2.1, o2.2.1, o2.2.2⟩]) := by
  have hdrop : t.drop cfrom.length = rest := by
    rw [ht]
    exact List.drop_left cfrom rest
  have hbody : qm_copy_cb local_qm ⟨none, cfrom, [outq, interq], fi, fo⟩ topic payload =
      destPubs local_qm fo (outq ++ rest) p r ++
        destPubs local_qm fo (interq ++ rest) p r := by
    simp only [qm_copy_cb, hin, Option.getD_none, hdrop]
    cases ho : runFilters fo (outq ++ rest) p r with
    | none =>
      cases hi : runFilters fo (interq ++ rest) p r with
      | none => simp [destPubs, ho, hi, List.filterMap]
      | some o2 => simp [destPubs, ho, hi, List.filterMap]
    | some o1 =>
      cases hi : runFilters fo (interq ++ rest) p r with
      | none => simp [destPubs, ho, hi, List.filterMap]
      | some o2 => simp [destPubs, ho, hi, List.filterMap]
  refine ⟨hbody, ?_, ?_, ?_⟩
  · intro pub hpub
    rw [hbody] at hpub
    rcases List.mem_append.mp hpub with h | h <;>
      · rw [destPubs] at h
        split at h <;> simp_all
  · intro o1 o2 ho hi
    rw [hbody, destPubs, destPubs, ho, hi]
    rfl
  · intro o2 ho hi
    rw [hbody, destPubs, destPubs, ho, hi]
    rfl

/-- Witness for C1 with empty filter lists on a concrete topic. -/
theorem qm_copy_cb_local_fanout_witness :
    qm_copy_cb 0 ⟨none, ['a'], [['o'], ['i']], [], []⟩ ['a', 'b'] ['p'] =
      destPubs 0 [] (['o'] ++ ['b']) ['p'] (RetainV.b false) ++
        destPubs 0 [] (['i'] ++ ['b']) ['p'] (RetainV.b false) :=
  (qm_copy_cb_local_fanout 0 [] [] ['a'] ['o'] ['i'] ['b'] ['a', 'b'] ['p']
    ['a', 'b'] ['p'] (RetainV.b false) rfl rfl).1

/-! ### C6: `QuadZone.optimise` invariants

The order `<` on `QKey` is the lexicographic order on digit lists, which
coincides with Python string comparison of the corresponding "0123"
strings, so `sorted(set_of_quadkeys)` is a `List.Sorted (· < ·)` list.
First, a toolbox about that order and the prefix relation. -/

/-- Inversion of the lexicographic order at a cons on both sides. -/
theorem qkey_lt_cons_iff {x y : Digit} {l m : List Digit} :
    (x :: l : QKey) < (y :: m) ↔ x < y ∨ (x = y ∧ (l : QKey) < m) := by
  constructor
  · intro h
    change List.Lex _ _ _ at h
    cases h with
    | cons h => exact Or.inr ⟨rfl, h⟩
    | rel h => exact Or.inl h
  · intro h
    rcases h with h | ⟨rfl, h⟩
    · exact List.Lex.rel h
    · exact List.Lex.cons h

/-- Nothing is lexicographically below the empty QuadKey. -/
theorem qkey_not_lt_nil (l : QKey) : ¬ l < ([] : QKey) := by
  intro h
  change List.Lex _ _ _ at h
  exact List.Lex.not_nil_right _ _ h

/-- The empty QuadKey is below every non-empty one. -/
theorem qkey_nil_lt (y : Digit) (m : List Digit) : ([] : QKey) < y :: m :=
  List.Lex.nil

/-- A proper extension is lexicographically above. -/
theorem qkey_lt_append (a t : QKey) (ht : t ≠ []) : a < a ++ t := by
  induction a with
  | nil =>
    cases t with
    | nil => exact absurd rfl ht
    | cons y m => exact qkey_nil_lt y m
  | cons x a2 ih => exact qkey_lt_cons_iff.mpr (Or.inr ⟨rfl, ih⟩)

/-- A proper prefix is lexicographically below. -/
theorem qkey_lt_of_prefix_ne {a b : QKey} (h : a <+: b) (hne : a ≠ b) :
    a < b := by
  obtain ⟨t, rfl⟩ := h
  have ht : t ≠ [] := by
    rintro rfl
    simp at hne
  exact qkey_lt_append a t ht

/-- Cancelling a common prefix on both sides of `<`. -/
theorem qkey_lt_of_append_lt {s t1 t2 : QKey} (h : (s ++ t1 : QKey) < s ++ t2) :
    (t1 : QKey) < t2 := by
  induction s with
  | nil => exact h
  | cons x s2 ih =>
    rcases qkey_lt_cons_iff.mp h with hx | ⟨-, h2⟩
    · exact absurd hx (lt_irrefl x)
    · exact ih h2

/-- No QuadKey lies strictly between `r` and `r ++ "0"`. -/
theorem qkey_lt_append_zero {r : QKey} :
    ∀ {s : QKey}, s < r ++ [(0 : Digit)] → s < r ∨ s = r := by
  induction r with
  | nil =>
    intro s h
    cases s with
    | nil => exact Or.inr rfl
    | cons y s2 =>
      rcases qkey_lt_cons_iff.mp h with hy | ⟨rfl, h2⟩
      · simp [Fin.lt_def] at hy
      · exact absurd h2 (qkey_not_lt_nil s2)
  | cons x r2 ih =>
    intro s h
    cases s with
    | nil => exact Or.inl (qkey_nil_lt x r2)
    | cons y s2 =>
      rw [List.cons_append] at h
      rcases qkey_lt_cons_iff.mp h with hy | ⟨rfl, h2⟩
      · exact Or.inl (qkey_lt_cons_iff.mpr (Or.inl hy))
      · rcases ih h2 with h3 | rfl
        · exact Or.inl (qkey_lt_cons_iff.mpr (Or.inr ⟨rfl, h3⟩))
        · exact Or.inr rfl

/-- A QuadKey strictly between `r ++ [c]` and `r ++ [d]`, for digits with
no digit strictly between `c` and `d`, extends `r ++ [c]`. -/
theorem qkey_prefix_of_between {c d : Digit}
    (hstep : ∀ e : Digit, c < e → d ≤ e) :
    ∀ {r s : QKey}, r ++ [c] < s → s < r ++ [d] → r ++ [c] <+: s := by
  intro r
  induction r with
  | nil =>
    intro s h1 h2
    cases s with
    | nil => exact absurd h1 (qkey_not_lt_nil _)
    | cons y s2 =>
      rcases qkey_lt_cons_iff.mp h1 with hy | ⟨rfl, -⟩
      · rcases qkey_lt_cons_iff.mp h2 with hy2 | ⟨rfl, h2b⟩
        · exact absurd hy2 (not_lt.mpr (hstep y hy))
        · exact absurd h2b (qkey_not_lt_nil _)
      · exact ⟨s2, rfl⟩
  | cons x r2 ih =>
    intro s h1 h2
    cases s with
    | nil => exact absurd h1 (qkey_not_lt_nil _)
    | cons y s2 =>
      rw [List.cons_append] at h1 h2
      rcases qkey_lt_cons_iff.mp h1 with hy | ⟨rfl, h1b⟩
      · rcases qkey_lt_cons_iff.mp h2 with hy2 | ⟨rfl, -⟩
        · exact absurd (lt_trans hy hy2) (lt_irrefl _)
        · exact absurd hy (lt_irrefl _)
      · rcases qkey_lt_cons_iff.mp h2 with hy2 | ⟨-, h2b⟩
        · exact absurd hy2 (lt_irrefl _)
        · obtain ⟨u, hu⟩ := ih h1b h2b
          exact ⟨u, congrArg (List.cons _) hu⟩

/-- A QuadKey strictly between a prefix `a` of `b` and `b` itself also
extends `a`. -/
theorem qkey_prefix_sandwich :
    ∀ {a b s : QKey}, a <+: b → a < s → s < b → a <+: s := by
  intro a
  induction a with
  | nil => exact fun _ _ _ => List.nil_prefix
  | cons x a2 ih =>
    intro b s hab h1 h2
    cases s with
    | nil => exact absurd h1 (qkey_not_lt_nil _)
    | cons y s2 =>
      obtain ⟨t, rfl⟩ := hab
      rw [List.cons_append] at h2
      rcases qkey_lt_cons_iff.mp h1 with hy | ⟨rfl, h1b⟩
      · rcases qkey_lt_cons_iff.mp h2 with hy2 | ⟨rfl, -⟩
        · exact absurd (lt_trans hy hy2) (lt_irrefl _)
        · exact absurd hy (lt_irrefl _)
      · rcases qkey_lt_cons_iff.mp h2 with hy2 | ⟨-, h2b⟩
        · exact absurd hy2 (lt_irrefl _)
        · obtain ⟨u, hu⟩ := ih ⟨t, rfl⟩ h1b h2b
          exact ⟨u, congrArg (List.cons _) hu⟩

/-- In a sorted list with a pairwise property, the property holds for any
two members in order. -/
theorem qkey_rel_of_sorted_mem {R : QKey → QKey → Prop} :
    ∀ {l : List QKey}, l.Sorted (· < ·) → l.Pairwise R →
      ∀ {a b : QKey}, a ∈ l → b ∈ l → a < b → R a b := by
  intro l
  induction l with
  | nil => intro _ _ a b ha; cases ha
  | cons x t ih =>
    intro hs hp a b ha hb hab
    rcases List.sorted_cons.mp hs with ⟨hxall, hst⟩
    rcases List.pairwise_cons.mp hp with ⟨hxR, hpt⟩
    rcases List.mem_cons.mp ha with rfl | ha2
    · rcases List.mem_cons.mp hb with rfl | hb2
      · exact absurd hab (lt_irrefl _)
      · exact hxR b hb2
    · rcases List.mem_cons.mp hb with rfl | hb2
      · exact absurd (lt_trans (hxall a ha2) hab) (lt_irrefl _)
      · exact ih hst hpt ha2 hb2 hab

/-- Adjacent non-containment plus sortedness gives pairwise
non-containment: any member that contains a later member would, by the
sandwich lemma, already contain its immediate successor. -/
theorem qkey_pairwise_not_prefix :
    ∀ {l : List QKey}, l.Sorted (· < ·) →
      l.Chain' (fun a b => ¬ a <+: b) →
      l.Pairwise (fun a b => ¬ a <+: b) := by
  intro l
  induction l with
  | nil => exact fun _ _ => List.Pairwise.nil
  | cons a t ih =>
    intro hs hc
    rcases List.sorted_cons.mp hs with ⟨haall, hst⟩
    refine List.pairwise_cons.mpr ⟨?_, ih hst hc.tail⟩
    intro b hb hpre
    cases t with
    | nil => cases hb
    | cons x t2 =>
      have hax : ¬ a <+: x := (List.chain'_cons.mp hc).1
      rcases List.mem_cons.mp hb with rfl | hb2
      · exact hax hpre
      · have hxb : x < b := (List.sorted_cons.mp hst).1 b hb2
        exact hax (qkey_prefix_sandwich hpre (haall x (by simp)) hxb)

/-- A `Good` list has no member that is a string-prefix root of its
immediate successor. -/
theorem good_chain :
    ∀ (lastq : Option QKey) (l : List QKey), Good lastq l →
      l.Chain' (fun a b => ¬ a <+: b) := by
  intro lastq l
  induction l generalizing lastq with
  | nil => exact fun _ => List.chain'_nil
  | cons q rest ih =>
    intro hg
    obtain ⟨-, -, hrest⟩ := hg
    refine List.chain'_cons'.mpr ⟨?_, ih (some q) hrest⟩
    intro y hy
    cases rest with
    | nil => simp at hy
    | cons r rest2 =>
      have hyr : y = r := by
        simp only [List.head?_cons, Option.mem_def, Option.some.injEq] at hy
        exact hy.symm
      subst hyr
      exact hrest.1 q rfl

/-- The merge condition fails at every position of a `Good` list. -/
theorem good_suffix :
    ∀ (A : List QKey) (lastq : Option QKey) (q : QKey) (rest : List QKey),
      Good lastq (A ++ q :: rest) → NoMergeStep q rest := by
  intro A
  induction A with
  | nil => exact fun _ _ _ hg => hg.2.1
  | cons x A2 ih => exact fun _ q rest hg => ih (some x) q rest hg.2.2

/-- `make_shallower(-1)` (the `root` of a merge step) drops the last
digit. -/
theorem make_shallower_neg_one (q : QKey) :
    make_shallower q (-1) = q.dropLast := by
  rw [make_shallower, pySliceTo, if_neg (by norm_num), List.dropLast_eq_take]
  norm_num

/-- Appending a larger final digit gives a larger QuadKey. -/
theorem qkey_append_digit_lt (r : QKey) {c d : Digit} (h : c < d) :
    (r ++ [c] : QKey) < r ++ [d] :=
  List.Lex.append_left _ (List.Lex.rel h) r

/-- Exactly one of the three shapes a step of the pass can take: skip
the popped QuadKey, merge four siblings into their root, or keep the
popped QuadKey. -/
theorem passAux_succ (n : Nat) (acc : List QKey) (q : QKey) (rest : List QKey) :
    (skipCond acc q = true ∧ passAux (n + 1) acc (q :: rest) = passAux n acc rest) ∨
    (skipCond acc q = false ∧
      ∃ a b c rest2, rest = a :: b :: c :: rest2 ∧ mergeCond q a b c ∧
        passAux (n + 1) acc (q :: rest) =
          passAux n (make_shallower q (-1) :: acc) rest2) ∨
    (skipCond acc q = false ∧ NoMergeStep q rest ∧
      passAux (n + 1) acc (q :: rest) = passAux n (q :: acc) rest) := by
  by_cases hskip : skipCond acc q = true
  · exact Or.inl ⟨hskip, by simp [passAux, hskip]⟩
  · have hs : skipCond acc q = false := by
      revert hskip
      cases skipCond acc q <;> simp
    rcases rest with _ | ⟨a, _ | ⟨b, _ | ⟨c, rest2⟩⟩⟩
    · exact Or.inr (Or.inr ⟨hs, trivial, by simp [passAux, hs]⟩)
    · exact Or.inr (Or.inr ⟨hs, trivial, by simp [passAux, hs]⟩)
    · exact Or.inr (Or.inr ⟨hs, trivial, by simp [passAux, hs]⟩)
    · by_cases hm : mergeCond q a b c
      · exact Or.inr (Or.inl ⟨hs, a, b, c, rest2, rfl, hm, by simp [passAux, hs, hm]⟩)
      · exact Or.inr (Or.inr ⟨hs, hm, by simp [passAux, hs, hm]⟩)

/-- A pass never lengthens the list. -/
theorem passAux_length_le :
    ∀ (fuel : Nat) (acc todo : List QKey), todo.length ≤ fuel →
      (passAux fuel acc todo).length ≤ acc.length + todo.length := by
  intro fuel
  induction fuel with
  | zero =>
    intro acc todo h
    simp [passAux]
  | succ n ih =>
    intro acc todo h
    cases todo with
    | nil => simp [passAux]
    | cons q rest =>
      rcases passAux_succ n acc q rest with ⟨-, he⟩ |
        ⟨-, a, b, c, rest2, rfl, -, he⟩ | ⟨-, -, he⟩
      · rw [he]
        have := ih acc rest (by simp at h; omega)
        simp only [List.length_cons]
        omega
      · rw [he]
        have := ih (make_shallower q (-1) :: acc) rest2 (by simp at h; omega)
        simp only [List.length_cons] at this ⊢
        omega
      · rw [he]
        have := ih (q :: acc) rest (by simp at h; omega)
        simp only [List.length_cons] at this ⊢
        omega

/-- A pass that does not shrink the list leaves it unchanged and
certifies that no step of the pass fires on it. -/
theorem passAux_full_eq :
    ∀ (fuel : Nat) (acc todo : List QKey), todo.length ≤ fuel →
      (passAux fuel acc todo).length = acc.length + todo.length →
      Good acc.head? todo ∧ passAux fuel acc todo = acc.reverse ++ todo := by
  intro fuel
  induction fuel with
  | zero =>
    intro acc todo h _
    have ht : todo = [] := List.length_eq_zero.mp (Nat.le_zero.mp h)
    subst ht
    exact ⟨trivial, by simp [passAux]⟩
  | succ n ih =>
    intro acc todo h hl
    cases todo with
    | nil => exact ⟨trivial, by simp [passAux]⟩
    | cons q rest =>
      rcases passAux_succ n acc q rest with ⟨hskip, he⟩ |
        ⟨-, a, b, c, rest2, rfl, -, he⟩ | ⟨hskip, hnm, he⟩
      · exfalso
        rw [he] at hl
        have := passAux_length_le n acc rest (by simp at h; omega)
        simp only [List.length_cons] at hl
        omega
      · exfalso
        rw [he] at hl
        have := passAux_length_le n (make_shallower q (-1) :: acc) rest2
          (by simp at h; omega)
        simp only [List.length_cons] at hl this
        omega
      · rw [he] at hl ⊢
        have hr : rest.length ≤ n := by simp at h; omega
        have hl2 : (passAux n (q :: acc) rest).length =
            (q :: acc).length + rest.length := by
          simp only [List.length_cons] at hl ⊢
          omega
        obtain ⟨hg, heq⟩ := ih (q :: acc) rest hr hl2
        refine ⟨⟨?_, hnm, hg⟩, ?_⟩
        · intro p hp hpre
          cases acc with
          | nil => cases hp
          | cons p2 t =>
            have hp2 : p2 = p := by
              simpa using hp
            subst hp2
            rw [skipCond] at hskip
            rw [← List.isPrefixOf_iff_prefix] at hpre
            rw [hpre] at hskip
            cases hskip
        · rw [heq]
          simp

/-- A pass preserves strict sortedness: `acc` is kept strictly
descending (it is the reversed kept list), `todo` strictly ascending,
with every kept element below every pending one. -/
theorem passAux_sorted :
    ∀ (fuel : Nat) (acc todo : List QKey), todo.length ≤ fuel →
      acc.Sorted (· > ·) → todo.Sorted (· < ·) →
      (∀ pa ∈ acc, ∀ x ∈ todo, pa < x) →
      (passAux fuel acc todo).Sorted (· < ·) := by
  intro fuel
  induction fuel with
  | zero =>
    intro acc todo h hacc _ _
    have ht : todo = [] := List.length_eq_zero.mp (Nat.le_zero.mp h)
    subst ht
    simpa [passAux] using List.pairwise_reverse.mpr hacc
  | succ n ih =>
    intro acc todo h hacc htodo hsep
    cases todo with
    | nil => simpa [passAux] using List.pairwise_reverse.mpr hacc
    | cons q rest =>
      rcases List.sorted_cons.mp htodo with ⟨hqall, hrest⟩
      rcases passAux_succ n acc q rest with ⟨hskip, he⟩ |
        ⟨hskip, a, b, c, rest2, hr, hm, he⟩ | ⟨hskip, hnm, he⟩
      · rw [he]
        exact ih acc rest (by simp at h; omega) hacc hrest
          (fun pa hpa x hx => hsep pa hpa x (List.mem_cons_of_mem _ hx))
      · rw [he]
        subst hr
        obtain ⟨hma, hmb, hmc⟩ := hm
        have hrootpre : make_shallower q (-1) <+: q := by
          rw [make_shallower_neg_one]
          exact List.dropLast_prefix q
        have hrootle : ∀ x, q < x → make_shallower q (-1) < x := by
          intro x hx
          by_cases hqr : make_shallower q (-1) = q
          · rw [hqr]
            exact hx
          · exact lt_trans (qkey_lt_of_prefix_ne hrootpre hqr) hx
        have hacc_lt_root : ∀ pb ∈ acc, pb < make_shallower q (-1) := by
          intro pb hpb
          cases acc with
          | nil => cases hpb
          | cons p t =>
            have hpq : p < q := hsep p (by simp) q (by simp)
            have hqnil : q ≠ [] := by
              rintro rfl
              exact absurd hpq (qkey_not_lt_nil p)
            have hnp : ¬ p <+: q := by
              intro hpre
              rw [skipCond] at hskip
              rw [← List.isPrefixOf_iff_prefix, hskip] at hpre
              cases hpre
            have hql : q.dropLast ++ [q.getLast hqnil] = q :=
              List.dropLast_append_getLast hqnil
            have hlt : q < q.dropLast ++ [(1 : Digit)] := by
              have := hqall a (by simp)
              rw [hma, make_shallower_neg_one] at this
              exact this
            have hlt2 : (q.dropLast ++ [q.getLast hqnil] : QKey) <
                q.dropLast ++ [1] := by
              rw [hql]
              exact hlt
            have hdig : ([q.getLast hqnil] : QKey) < [(1 : Digit)] :=
              qkey_lt_of_append_lt hlt2
            have h0 : q.getLast hqnil = 0 := by
              rcases qkey_lt_cons_iff.mp hdig with hd | ⟨-, hd⟩
              · have hv := Fin.lt_def.mp hd
                exact Fin.ext (by simpa using Nat.lt_one_iff.mp (by simpa using hv))
              · exact absurd hd (lt_irrefl _)
            have hq0 : q = make_shallower q (-1) ++ [(0 : Digit)] := by
              rw [make_shallower_neg_one]
              conv_lhs => rw [← hql]
              rw [h0]
            have hplt : p < make_shallower q (-1) := by
              rcases qkey_lt_append_zero (hq0 ▸ hpq) with hlt | heq
              · exact hlt
              · exfalso
                apply hnp
                rw [hq0, heq]
                exact ⟨[0], rfl⟩
            rcases List.mem_cons.mp hpb with rfl | hpb2
            · exact hplt
            · exact lt_trans ((List.sorted_cons.mp hacc).1 pb hpb2) hplt
        refine ih (make_shallower q (-1) :: acc) rest2 (by simp at h; omega)
          (List.sorted_cons.mpr ⟨hacc_lt_root, hacc⟩) ?_ ?_
        · rcases List.sorted_cons.mp hrest with ⟨-, hrest2⟩
          rcases List.sorted_cons.mp hrest2 with ⟨-, hrest3⟩
          exact (List.sorted_cons.mp hrest3).2
        · intro pa hpa x hx
          rcases List.mem_cons.mp hpa with rfl | hpa2
          · exact hrootle x (hqall x (by simp [hx]))
          · exact hsep pa hpa2 x (by simp [hx])
      · rw [he]
        refine ih (q :: acc) rest (by simp at h; omega)
          (List.sorted_cons.mpr ⟨fun pb hpb => hsep pb hpb q (by simp), hacc⟩)
          hrest ?_
        intro pa hpa x hx
        rcases List.mem_cons.mp hpa with rfl | hpa2
        · exact hqall x hx
        · exact hsep pa hpa2 x (List.mem_cons_of_mem _ hx)

/-- The optimise loop, run to its fixed point, returns a sorted list on
which no pass step fires any more. -/
theorem optimiseLoop_spec :
    ∀ (fuel : Nat) (l : List QKey), l.length < fuel → l.Sorted (· < ·) →
      (optimiseLoop fuel l).Sorted (· < ·) ∧ Good none (optimiseLoop fuel l) := by
  intro fuel
  induction fuel with
  | zero => exact fun l h _ => absurd h (Nat.not_lt_zero _)
  | succ n ih =>
    intro l h hs
    by_cases hlt : (passAux l.length [] l).length < l.length
    · have hstep : optimiseLoop (n + 1) l = optimiseLoop n (passAux l.length [] l) := by
        simp only [optimiseLoop]
        rw [if_pos hlt]
      rw [hstep]
      exact ih (passAux l.length [] l) (by omega)
        (passAux_sorted l.length [] l le_rfl (List.sorted_nil) hs (by simp))
    · have hstep : optimiseLoop (n + 1) l = passAux l.length [] l := by
        simp only [optimiseLoop]
        rw [if_neg hlt]
      have hle := passAux_length_le l.length [] l le_rfl
      have hlen : (passAux l.length [] l).length = ([] : List QKey).length + l.length := by
        simp only [List.length_nil] at hle ⊢
        omega
      obtain ⟨hg, he⟩ := passAux_full_eq l.length [] l le_rfl hlen
      rw [hstep, he]
      simp only [List.reverse_nil, List.nil_append]
      exact ⟨hs, hg⟩

/-- In a sorted list, a member `v` above `u` with nothing of the list
strictly between them is the immediate successor of `u`. -/
theorem sorted_next_head {L : List QKey} (hs : L.Sorted (· < ·))
    {A B : List QKey} {u : QKey} (hAB : L = A ++ u :: B) {v : QKey}
    (hv : v ∈ L) (huv : u < v)
    (hnb : ∀ s ∈ L, u < s → s < v → False) :
    ∃ B2, B = v :: B2 := by
  subst hAB
  obtain ⟨hpA, hpuB, hcross⟩ := List.pairwise_append.mp hs
  have hvB : v ∈ B := by
    rcases List.mem_append.mp hv with hA | hB
    · exact absurd (lt_trans (hcross v hA u (by simp)) huv) (lt_irrefl _)
    · rcases List.mem_cons.mp hB with rfl | hB2
      · exact absurd huv (lt_irrefl _)
      · exact hB2
  cases B with
  | nil => cases hvB
  | cons b B2 =>
    obtain ⟨huall, hpB⟩ := List.pairwise_cons.mp hpuB
    rcases List.mem_cons.mp hvB with rfl | hvB2
    · exact ⟨B2, rfl⟩
    · have hbv : b < v := (List.pairwise_cons.mp hpB).1 v hvB2
      exact absurd (hnb b (by simp) (huall b (by simp)) hbv) id

/-- C6: after `QuadZone.optimise` reaches its fixed point, (a) no
QuadKey of the zone is an ancestor (string-prefix) of another distinct
one, and (b) no four sibling QuadKeys (the four children `root+"0"` …
`root+"3"` of a common parent) are all present: any such quadruple would
be contiguous in the sorted fixed point and the pass would have merged
it. The input list is `sorted(self.quadkeys)` of the source: a strictly
sorted list. -/
theorem optimise_invariants (l : List QKey) (hsort : l.Sorted (· < ·)) :
    (∀ a ∈ optimise l, ∀ b ∈ optimise l, a ≠ b → ¬ a <+: b) ∧
    ∀ r : QKey, ¬(r ++ [0] ∈ optimise l ∧ r ++ [1] ∈ optimise l ∧
      r ++ [2] ∈ optimise l ∧ r ++ [3] ∈ optimise l) := by
  obtain ⟨hs, hg⟩ := optimiseLoop_spec (l.length + 1) l (by omega) hsort
  have hL : optimise l = optimiseLoop (l.length + 1) l := rfl
  rw [← hL] at hs hg
  have hpair : (optimise l).Pairwise (fun a b => ¬ a <+: b) :=
    qkey_pairwise_not_prefix hs (good_chain none _ hg)
  constructor
  · intro a ha b hb hne hpre
    exact qkey_rel_of_sorted_mem hs hpair ha hb (qkey_lt_of_prefix_ne hpre hne) hpre
  · rintro r ⟨h0, h1, h2, h3⟩
    have hexcl : ∀ (k k1 : Digit), (∀ e : Digit, k < e → k1 ≤ e) →
        r ++ [k] ∈ optimise l →
        ∀ s ∈ optimise l, r ++ [k] < s → s < r ++ [k1] → False := by
      intro k k1 hstep hkmem s hsmem hlt1 hlt2
      exact qkey_rel_of_sorted_mem hs hpair hkmem hsmem hlt1
        (qkey_prefix_of_between hstep hlt1 hlt2)
    obtain ⟨A, B, hAB⟩ := List.append_of_mem h0
    obtain ⟨B1, hB1⟩ := sorted_next_head hs hAB h1
      (qkey_append_digit_lt r (by decide)) (hexcl 0 1 (by decide) h0)
    have hAB2 : optimise l = (A ++ [r ++ [0]]) ++ (r ++ [1]) :: B1 := by
      rw [hAB, hB1]
      simp
    obtain ⟨B2, hB2⟩ := sorted_next_head hs hAB2 h2
      (qkey_append_digit_lt r (by decide)) (hexcl 1 2 (by decide) h1)
    have hAB3 : optimise l = ((A ++ [r ++ [0]]) ++ [r ++ [1]]) ++ (r ++ [2]) :: B2 := by
      rw [hAB2, hB2]
      simp
    obtain ⟨B3, hB3⟩ := sorted_next_head hs hAB3 h3
      (qkey_append_digit_lt r (by decide)) (hexcl 2 3 (by decide) h2)
    have hfin : optimise l =
        A ++ (r ++ [0]) :: (r ++ [1]) :: (r ++ [2]) :: (r ++ [3]) :: B3 := by
      rw [hAB, hB1, hB2, hB3]
    have hnm := good_suffix A none (r ++ [0])
      ((r ++ [1]) :: (r ++ [2]) :: (r ++ [3]) :: B3) (hfin ▸ hg)
    apply hnm
    refine ⟨?_, ?_, ?_⟩ <;> rw [make_shallower_neg_one, List.dropLast_concat]

/-- Witness for C6 at the spec's concrete zone
`{"00","01","02","03","1"}`, which optimises to `{"0","1"}`: the two
remaining QuadKeys do not contain each other. -/
theorem optimise_invariants_witness :
    ¬ ([0] : QKey) <+: [1] :=
  (optimise_invariants [[0, 0], [0, 1], [0, 2], [0, 3], [1]] (by decide)).1
    [0] (by decide) [1] (by decide) (by decide)

end ItsClient
